import Mathlib

/-!
Verification of the prefix-list selection logic in `src/modules/list_pl.py`
(`list_prefix_lists`).  The function receives the raw record list
`response["PrefixLists"]`, filters each record by ownership and by
case-insensitive substring inclusion/exclusion on the name, collects the
survivors into a dict keyed by id (later records overwrite earlier ones with
the same id), and finally returns the entries sorted ascending by lowercased
name.  We embed the records, the loop body, the dict semantics and the final
stable sort, and prove the behavioural properties below.
-/

namespace PLUtils

/-- A prefix-list record as found in `response["PrefixLists"]`.  Each field is
read with `dict.get`, so each may be absent; absence is modelled by `none`. -/
structure PLRecord where
  PrefixListId : Option String
  PrefixListName : Option String
  OwnerId : Option String
deriving DecidableEq

/-- Python truthiness of an optional string (`if not pl_id`, `if account_id`,
`if pl_filter`, `if pl_exclude`): falsy iff absent or empty. -/
def truthy : Option String → Bool
  | none => false
  | some s => !(s == "")

/-- Embedding of Python `str.lower()` (ASCII case folding, characterwise). -/
def strLower (s : String) : String := ⟨s.data.map Char.toLower⟩

/-- Embedding of Python `needle in haystack` on strings: `needle` occurs as a
contiguous substring of `haystack`. -/
def strContains (haystack needle : String) : Bool :=
  (List.range (haystack.data.length + 1)).any
    (fun i => needle.data.isPrefixOf (haystack.data.drop i))

/-- Python dict assignment `d[k] = v` on an insertion-ordered association
list: an existing key keeps its position and receives the new value, a fresh
key is appended at the end. -/
def dictInsert (d : List (String × String)) (k v : String) :
    List (String × String) :=
  if d.any (fun p => p.1 == k) then
    d.map (fun p => if p.1 == k then (k, v) else p)
  else d ++ [(k, v)]

/-- The body of the `for pl in prefix_lists` loop of `list_prefix_lists`,
acting on the accumulator `pl_details`.  Mirrors the four `continue` guards
and the final `pl_details[pl_id] = pl_name` of the source. -/
def processRecord (account_id pl_filter pl_exclude : Option String)
    (pl_details : List (String × String)) (pl : PLRecord) :
    List (String × String) :=
  let pl_id := pl.PrefixListId
  let pl_name := pl.PrefixListName.getD "N/A"
  if !(truthy pl_id) then pl_details
  else if truthy account_id && !(pl.OwnerId == account_id) then pl_details
  else if truthy pl_filter
      && !(strContains (strLower pl_name) (strLower (pl_filter.getD ""))) then
    pl_details
  else if truthy pl_exclude
      && strContains (strLower pl_name) (strLower (pl_exclude.getD "")) then
    pl_details
  else dictInsert pl_details (pl_id.getD "") pl_name

/-- Lexicographic `≤` on char lists by code point, as Python compares
strings (a proper prefix is smaller). -/
def charListLE : List Char → List Char → Bool
  | [], _ => true
  | _ :: _, [] => false
  | a :: as, b :: bs =>
    if a.toNat < b.toNat then true
    else if b.toNat < a.toNat then false
    else charListLE as bs

/-- Comparison used by the final `sorted(pl_details.items(),
key=lambda x: x[1].lower())`: ascending by lowercased name. -/
def nameLE (p q : String × String) : Bool :=
  charListLE (strLower p.2).data (strLower q.2).data

/-- Shallow embedding of `list_prefix_lists`.  `prefix_lists` stands for
`response.get("PrefixLists", [])`; the client call and the two log lines have
no effect on the returned value and are not modelled.  Python's `sorted` is a
stable sort by the key `x[1].lower()`, embedded as `List.mergeSort nameLE`
(stable sorts by one total preorder agree on all inputs). -/
def list_prefix_lists (prefix_lists : List PLRecord)
    (account_id pl_filter pl_exclude : Option String) :
    List (String × String) :=
  let pl_details :=
    prefix_lists.foldl (processRecord account_id pl_filter pl_exclude) []
  if pl_details.isEmpty then []
  else pl_details.mergeSort nameLE

/-- The value of the working dict `pl_details` after the loop. -/
def runDict (account_id pl_filter pl_exclude : Option String)
    (records : List PLRecord) : List (String × String) :=
  records.foldl (processRecord account_id pl_filter pl_exclude) []

/-- The key a record contributes (`pl_id`; meaningful when its id is truthy). -/
def keyOf (pl : PLRecord) : String := pl.PrefixListId.getD ""

/-- The name a record contributes: `pl.get("PrefixListName", "N/A")`. -/
def nameOf (pl : PLRecord) : String := pl.PrefixListName.getD "N/A"

/-- A record passes all four guards of the loop (reaches the assignment). -/
def keep (account_id pl_filter pl_exclude : Option String) (pl : PLRecord) :
    Bool :=
  truthy pl.PrefixListId
  && !(truthy account_id && !(pl.OwnerId == account_id))
  && !(truthy pl_filter
        && !(strContains (strLower (nameOf pl)) (strLower (pl_filter.getD ""))))
  && !(truthy pl_exclude
        && strContains (strLower (nameOf pl)) (strLower (pl_exclude.getD "")))

/-! ## Basic lemmas about the embedding -/

/-- `list_prefix_lists` in terms of the post-loop dict `runDict`. -/
theorem list_prefix_lists_eq (records : List PLRecord)
    (a f e : Option String) :
    list_prefix_lists records a f e =
      if (runDict a f e records).isEmpty then []
      else (runDict a f e records).mergeSort nameLE := rfl

/-- The loop body either inserts `(keyOf pl, nameOf pl)` (when all four
guards pass) or leaves the dict unchanged. -/
theorem processRecord_eq (a f e : Option String)
    (d : List (String × String)) (pl : PLRecord) :
    processRecord a f e d pl =
      if keep a f e pl then dictInsert d (keyOf pl) (nameOf pl) else d := by
  simp only [processRecord, keep, keyOf, nameOf]
  cases h1 : truthy pl.PrefixListId <;>
    cases h2 : truthy a && !(pl.OwnerId == a) <;>
      cases h3 : truthy f &&
          !(strContains (strLower (pl.PrefixListName.getD "N/A"))
            (strLower (f.getD ""))) <;>
        cases h4 : truthy e &&
            strContains (strLower (pl.PrefixListName.getD "N/A"))
              (strLower (e.getD "")) <;>
          simp [h1, h2, h3, h4]

/-- Keys of the dict after an assignment: unchanged if the key was present,
otherwise the key is appended. -/
theorem keys_dictInsert (d : List (String × String)) (k v : String) :
    (dictInsert d k v).map Prod.fst =
      if d.any (fun p => p.1 == k) then d.map Prod.fst
      else d.map Prod.fst ++ [k] := by
  unfold dictInsert
  split
  · simp only [List.map_map]
    refine congrFun (congrArg _ ?_) d
    funext p
    by_cases h : p.1 = k <;> simp [h]
  · simp

/-- Dict assignment preserves distinctness of keys. -/
theorem nodup_keys_dictInsert (d : List (String × String)) (k v : String)
    (h : (d.map Prod.fst).Nodup) :
    ((dictInsert d k v).map Prod.fst).Nodup := by
  rw [keys_dictInsert]
  split
  · exact h
  · rename_i hany
    have hk : k ∉ d.map Prod.fst := by
      intro hkm
      rcases List.mem_map.mp hkm with ⟨p, hp, hpk⟩
      exact hany (List.any_eq_true.mpr ⟨p, hp, by simp [hpk]⟩)
    refine List.Nodup.append h (List.nodup_singleton k) ?_
    intro x hx hxk
    rw [List.mem_singleton] at hxk
    subst hxk
    exact hk hx

/-- Assignment under a different key does not change membership. -/
theorem mem_dictInsert_ne {d : List (String × String)} {k v k' v' : String}
    (hne : k' ≠ k) :
    ((k', v') ∈ dictInsert d k v) ↔ (k', v') ∈ d := by
  unfold dictInsert
  split
  · constructor
    · intro hm
      rcases List.mem_map.mp hm with ⟨p, hp, hfp⟩
      by_cases h : (p.1 == k) = true
      · rw [if_pos h] at hfp
        exact absurd (congrArg Prod.fst hfp).symm hne
      · rw [if_neg h] at hfp
        exact hfp ▸ hp
    · intro hm
      refine List.mem_map.mpr ⟨(k', v'), hm, ?_⟩
      rw [if_neg]
      intro hkk
      exact hne (by simpa using hkk)
  · simp only [List.mem_append, List.mem_singleton]
    constructor
    · rintro (hm | hm)
      · exact hm
      · injection hm with h1 h2
        exact absurd h1 hne
    · exact Or.inl

/-- Membership under the assigned key: exactly the new value. -/
theorem mem_dictInsert_self {d : List (String × String)} {k v v' : String} :
    ((k, v') ∈ dictInsert d k v) ↔ v' = v := by
  unfold dictInsert
  split
  · rename_i hany
    constructor
    · intro hm
      rcases List.mem_map.mp hm with ⟨p, hp, hfp⟩
      by_cases h : (p.1 == k) = true
      · rw [if_pos h] at hfp
        injection hfp with h1 h2
        exact h2.symm
      · rw [if_neg h] at hfp
        subst hfp
        exact absurd (by simp) h
    · rintro rfl
      rcases List.any_eq_true.mp hany with ⟨p, hp, hpk⟩
      refine List.mem_map.mpr ⟨p, hp, ?_⟩
      rw [if_pos hpk]
  · rename_i hany
    have hnk : ∀ p ∈ d, ¬((p.1 == k) = true) := by
      intro p hp hpk
      exact hany (List.any_eq_true.mpr ⟨p, hp, hpk⟩)
    simp only [List.mem_append, List.mem_singleton]
    constructor
    · rintro (hm | hm)
      · exact absurd (by simp) (hnk (k, v') hm)
      · exact congrArg Prod.snd hm
    · rintro rfl
      exact Or.inr rfl

/-! ## Characterising the post-loop dict -/

/-- A record relevant for key `k`: it passes all four guards and its id is
`k`. -/
def matchesKey (a f e : Option String) (k : String) (pl : PLRecord) : Bool :=
  keep a f e pl && (keyOf pl == k)

/-- The name stored under key `k` after the loop: the name of the last
guard-passing record whose id is `k`, if any. -/
def lastKeep (a f e : Option String) (records : List PLRecord) (k : String) :
    Option String :=
  ((records.filter (matchesKey a f e k)).map nameOf).getLast?

theorem runDict_append (a f e : Option String) (rs : List PLRecord)
    (pl : PLRecord) :
    runDict a f e (rs ++ [pl]) = processRecord a f e (runDict a f e rs) pl := by
  simp [runDict, List.foldl_append]

theorem lastKeep_append_match {a f e : Option String} {k : String}
    {pl : PLRecord} (rs : List PLRecord)
    (hm : matchesKey a f e k pl = true) :
    lastKeep a f e (rs ++ [pl]) k = some (nameOf pl) := by
  simp [lastKeep, List.filter_append, hm, List.getLast?_concat]

theorem lastKeep_append_skip {a f e : Option String} {k : String}
    {pl : PLRecord} (rs : List PLRecord)
    (hm : matchesKey a f e k pl = false) :
    lastKeep a f e (rs ++ [pl]) k = lastKeep a f e rs k := by
  simp [lastKeep, List.filter_append, hm]

/-- Membership in the post-loop dict: the key holds exactly the name of the
last guard-passing record with that id. -/
theorem mem_runDict (a f e : Option String) (records : List PLRecord)
    (k v : String) :
    ((k, v) ∈ runDict a f e records) ↔ lastKeep a f e records k = some v := by
  induction records using List.reverseRecOn with
  | nil => simp [runDict, lastKeep]
  | append_singleton rs pl ih =>
    rw [runDict_append, processRecord_eq]
    by_cases hm : matchesKey a f e k pl = true
    · have hkeep : keep a f e pl = true := (Bool.and_eq_true _ _).mp hm |>.1
      have hkey : keyOf pl = k := by
        have := ((Bool.and_eq_true _ _).mp hm).2
        simpa using this
      rw [if_pos hkeep, lastKeep_append_match rs hm, hkey,
        mem_dictInsert_self]
      constructor
      · rintro rfl; rfl
      · intro h; injection h with h; exact h.symm
    · rw [Bool.not_eq_true] at hm
      rw [lastKeep_append_skip rs hm]
      cases hkeep : keep a f e pl with
      | false => rw [if_neg (by simp [hkeep])]; exact ih
      | true =>
        have hkey : keyOf pl ≠ k := by
          intro hk
          rw [matchesKey, hkeep, hk] at hm
          simp at hm
        rw [if_pos rfl, mem_dictInsert_ne (Ne.symm hkey)]
        exact ih

/-- The post-loop dict has pairwise-distinct keys. -/
theorem nodup_keys_runDict (a f e : Option String) (records : List PLRecord) :
    ((runDict a f e records).map Prod.fst).Nodup := by
  induction records using List.reverseRecOn with
  | nil => simp [runDict]
  | append_singleton rs pl ih =>
    rw [runDict_append, processRecord_eq]
    split
    · exact nodup_keys_dictInsert _ _ _ ih
    · exact ih

/-- The returned list is a permutation of the post-loop dict. -/
theorem result_perm_runDict (records : List PLRecord)
    (a f e : Option String) :
    (list_prefix_lists records a f e).Perm (runDict a f e records) := by
  rw [list_prefix_lists_eq]
  split
  · rename_i hemp
    simp [List.isEmpty_iff.mp hemp]
  · exact List.mergeSort_perm _ _

/-- Membership in the returned list, via the dict characterisation. -/
theorem mem_result (records : List PLRecord) (a f e : Option String)
    (k v : String) :
    ((k, v) ∈ list_prefix_lists records a f e) ↔
      lastKeep a f e records k = some v := by
  rw [(result_perm_runDict records a f e).mem_iff]
  exact mem_runDict a f e records k v

/-! ## The sort comparison is a total preorder -/

theorem charListLE_total : ∀ (x y : List Char),
    (charListLE x y || charListLE y x) = true
  | [], ys => by simp [charListLE]
  | x :: xs, [] => by simp [charListLE]
  | a :: as, b :: bs => by
    by_cases h1 : a.toNat < b.toNat
    · simp [charListLE, h1]
    · by_cases h2 : b.toNat < a.toNat
      · simp [charListLE, h1, h2]
      · simpa [charListLE, h1, h2] using charListLE_total as bs

theorem charListLE_trans : ∀ (x y z : List Char),
    charListLE x y = true → charListLE y z = true → charListLE x z = true
  | [], _, _, _, _ => by simp [charListLE]
  | _ :: _, [], _, h1, _ => by simp [charListLE] at h1
  | _ :: _, _ :: _, [], _, h2 => by simp [charListLE] at h2
  | a :: as, b :: bs, c :: cs, h1, h2 => by
    simp only [charListLE] at h1 h2 ⊢
    by_cases hab : a.toNat < b.toNat
    · by_cases hbc : b.toNat < c.toNat
      · rw [if_pos (Nat.lt_trans hab hbc)]
      · by_cases hcb : c.toNat < b.toNat
        · rw [if_neg hbc, if_pos hcb] at h2
          exact absurd h2 (by simp)
        · rw [if_pos (Nat.lt_of_lt_of_le hab (Nat.not_lt.mp hcb))]
    · by_cases hba : b.toNat < a.toNat
      · rw [if_neg hab, if_pos hba] at h1
        exact absurd h1 (by simp)
      · rw [if_neg hab, if_neg hba] at h1
        have hab' : a.toNat = b.toNat :=
          Nat.le_antisymm (Nat.not_lt.mp hba) (Nat.not_lt.mp hab)
        by_cases hbc : b.toNat < c.toNat
        · rw [if_pos (hab' ▸ hbc)]
        · by_cases hcb : c.toNat < b.toNat
          · rw [if_neg hbc, if_pos hcb] at h2
            exact absurd h2 (by simp)
          · rw [if_neg hbc, if_neg hcb] at h2
            have hbc' : b.toNat = c.toNat :=
              Nat.le_antisymm (Nat.not_lt.mp hcb) (Nat.not_lt.mp hbc)
            have hac : ¬(a.toNat < c.toNat) := by
              rw [hab', hbc']
              exact Nat.lt_irrefl _
            have hca : ¬(c.toNat < a.toNat) := by
              rw [hab', hbc']
              exact Nat.lt_irrefl _
            rw [if_neg hac, if_neg hca]
            exact charListLE_trans as bs cs h1 h2

theorem nameLE_trans (p q r : String × String) :
    nameLE p q → nameLE q r → nameLE p r :=
  charListLE_trans _ _ _

theorem nameLE_total (p q : String × String) :
    (nameLE p q || nameLE q p) = true :=
  charListLE_total _ _

/-! ## Further helpers -/

/-- If no record passes the guards, the loop leaves the dict empty. -/
theorem runDict_eq_nil (a f e : Option String) (records : List PLRecord)
    (h : ∀ pl ∈ records, keep a f e pl = false) :
    runDict a f e records = [] := by
  induction records with
  | nil => rfl
  | cons pl rs ih =>
    have h0 : processRecord a f e [] pl = [] := by
      rw [processRecord_eq, h pl (List.mem_cons_self pl rs)]
      simp
    show List.foldl (processRecord a f e) [] (pl :: rs) = []
    rw [List.foldl_cons, h0]
    exact ih (fun p hp => h p (List.mem_cons_of_mem _ hp))

theorem result_of_runDict_nil (records : List PLRecord)
    (a f e : Option String) (h : runDict a f e records = []) :
    list_prefix_lists records a f e = [] := by
  rw [list_prefix_lists_eq, h]
  rfl

/-- In a list with pairwise-distinct keys, at most one element carries a
given key. -/
theorem length_filter_key_le_one {α : Type} (g : α → String) (l : List α)
    (h : (l.map g).Nodup) (k : String) :
    (l.filter (fun x => g x == k)).length ≤ 1 := by
  induction l with
  | nil => simp
  | cons x xs ih =>
    rw [List.map_cons, List.nodup_cons] at h
    by_cases hx : (g x == k) = true
    · rw [List.filter_cons, if_pos hx]
      have hnil : xs.filter (fun y => g y == k) = [] := by
        rw [List.filter_eq_nil_iff]
        intro y hy hyk
        have hgy : g y = k := by simpa using hyk
        have hgx : g x = k := by simpa using hx
        exact h.1 (List.mem_map.mpr ⟨y, hy, hgy.trans hgx.symm⟩)
      rw [hnil]
      simp
    · rw [List.filter_cons, if_neg hx]
      exact ih h.2

theorem eq_singleton_of_mem_of_length_le_one {α : Type} {l : List α} {x : α}
    (hx : x ∈ l) (hlen : l.length ≤ 1) : l = [x] := by
  cases l with
  | nil => cases hx
  | cons y ys =>
    cases ys with
    | nil =>
      rw [List.mem_singleton] at hx
      rw [hx]
    | cons z zs => simp at hlen

/-- Under distinct ids among guard-passing records, at most one record is
relevant for any key. -/
theorem length_filter_matchesKey_le_one {records : List PLRecord}
    {a f e : Option String} {k : String}
    (h : ((records.filter (keep a f e)).map keyOf).Nodup) :
    (records.filter (matchesKey a f e k)).length ≤ 1 := by
  have heq : records.filter (matchesKey a f e k)
      = (records.filter (keep a f e)).filter (fun pl => keyOf pl == k) := by
    rw [List.filter_filter]
    apply List.filter_congr
    intro pl _
    simp [matchesKey, Bool.and_comm]
  rw [heq]
  exact length_filter_key_le_one keyOf _ h k

/-- Under distinct ids among guard-passing records, any relevant record in
the input determines the dict entry for its key. -/
theorem lastKeep_eq_of_mem {records : List PLRecord} {a f e : Option String}
    {k : String} {pl : PLRecord}
    (h : ((records.filter (keep a f e)).map keyOf).Nodup)
    (hpl : pl ∈ records) (hm : matchesKey a f e k pl = true) :
    lastKeep a f e records k = some (nameOf pl) := by
  have hmem : pl ∈ records.filter (matchesKey a f e k) :=
    List.mem_filter.mpr ⟨hpl, hm⟩
  have hsing := eq_singleton_of_mem_of_length_le_one hmem
    (length_filter_matchesKey_le_one h)
  rw [lastKeep, hsing]
  rfl

/-- A nonempty dict entry comes from a relevant input record. -/
theorem exists_of_lastKeep {records : List PLRecord} {a f e : Option String}
    {k v : String} (h : lastKeep a f e records k = some v) :
    ∃ pl ∈ records, matchesKey a f e k pl = true ∧ nameOf pl = v := by
  rw [lastKeep, List.getLast?_map] at h
  cases hfl : (records.filter (matchesKey a f e k)).getLast? with
  | none =>
    rw [hfl] at h
    cases h
  | some pl =>
    rw [hfl] at h
    have hplm := List.mem_of_getLast?_eq_some hfl
    rcases List.mem_filter.mp hplm with ⟨h1, h2⟩
    refine ⟨pl, h1, h2, ?_⟩
    injection h

/-- A guard-passing record has a truthy id. -/
theorem keep_truthy_id {a f e : Option String} {pl : PLRecord}
    (h : keep a f e pl = true) : truthy pl.PrefixListId = true := by
  rw [keep] at h
  exact (Bool.and_eq_true _ _).mp
    ((Bool.and_eq_true _ _).mp ((Bool.and_eq_true _ _).mp h).1).1 |>.1

/-- A truthy id is a present, non-empty string, and `keyOf` returns it. -/
theorem truthy_id_spec {pl : PLRecord} (h : truthy pl.PrefixListId = true) :
    pl.PrefixListId = some (keyOf pl) ∧ keyOf pl ≠ "" := by
  cases hid : pl.PrefixListId with
  | none =>
    rw [hid] at h
    cases h
  | some s =>
    rw [hid] at h
    have hs : s ≠ "" := by simpa [truthy] using h
    exact ⟨by simp [keyOf, hid], by simpa [keyOf, hid] using hs⟩

/-- The four guards of the loop, unfolded into the four conditions of the
specification. -/
theorem keep_eq_true_iff (a f e : Option String) (pl : PLRecord) :
    keep a f e pl = true ↔
      (truthy pl.PrefixListId = true ∧
       (truthy a = true → pl.OwnerId = a) ∧
       (truthy f = true →
         strContains (strLower (nameOf pl)) (strLower (f.getD "")) = true) ∧
       (truthy e = true →
         strContains (strLower (nameOf pl)) (strLower (e.getD "")) = false)) := by
  cases ha : truthy a <;> cases hf : truthy f <;> cases he : truthy e <;>
    simp [keep, ha, hf, he, beq_iff_eq, Bool.not_eq_true', and_assoc]

/-- A record with an absent name, completed with the explicit sentinel
`"N/A"` (all other fields unchanged). -/
def fillName (pl : PLRecord) : PLRecord :=
  { pl with PrefixListName := some (pl.PrefixListName.getD "N/A") }

theorem processRecord_fillName (a f e : Option String)
    (d : List (String × String)) (pl : PLRecord) :
    processRecord a f e d (fillName pl) = processRecord a f e d pl := by
  cases pl with
  | mk i n o => cases n <;> rfl

theorem runDict_map_fillName (a f e : Option String)
    (records : List PLRecord) :
    runDict a f e (records.map fillName) = runDict a f e records := by
  have key : ∀ (rs : List PLRecord) (d : List (String × String)),
      (rs.map fillName).foldl (processRecord a f e) d
        = rs.foldl (processRecord a f e) d := by
    intro rs
    induction rs with
    | nil => intro d; rfl
    | cons pl ps ih =>
      intro d
      rw [List.map_cons, List.foldl_cons, List.foldl_cons,
        processRecord_fillName]
      exact ih _
  exact key records []

/-! ## Claims -/

/-- C2: for every input, iterating the result of `list_prefix_lists` yields
the entries in non-decreasing order of lowercased name (case-insensitive
lexicographic comparison); in particular this holds for every non-empty
result. -/
theorem C2_sort_order (records : List PLRecord) (a f e : Option String) :
    (list_prefix_lists records a f e).Pairwise
      (fun p q => nameLE p q = true) := by
  rw [list_prefix_lists_eq]
  split
  · simp
  · exact List.sorted_mergeSort nameLE_trans nameLE_total _

/-- C4: when no record passes the four guards, `list_prefix_lists` returns
the empty mapping (the no-match outcome is only a logged condition in the
source, never an exception; the embedding returns normally). -/
theorem C4_empty_on_no_match (records : List PLRecord)
    (a f e : Option String) (h : ∀ pl ∈ records, keep a f e pl = false) :
    list_prefix_lists records a f e = [] :=
  result_of_runDict_nil records a f e (runDict_eq_nil a f e records h)

theorem C4_empty_on_no_match_witness :
    (∀ pl ∈ [(⟨some "pl-9", some "x", some "111"⟩ : PLRecord)],
      keep (some "222") none none pl = false) ∧
    list_prefix_lists [⟨some "pl-9", some "x", some "111"⟩]
      (some "222") none none = [] :=
  ⟨by decide,
   C4_empty_on_no_match [⟨some "pl-9", some "x", some "111"⟩]
     (some "222") none none (by decide)⟩

/-- C6: every key of the returned mapping is a non-empty id drawn from some
input record; a record with an absent or empty id never contributes. -/
theorem C6_keys_from_input (records : List PLRecord) (a f e : Option String)
    (p : String × String) (hp : p ∈ list_prefix_lists records a f e) :
    p.1 ≠ "" ∧ ∃ pl ∈ records, pl.PrefixListId = some p.1 := by
  obtain ⟨k, v⟩ := p
  rw [mem_result] at hp
  rcases exists_of_lastKeep hp with ⟨pl, hpl, hm, hname⟩
  have hkeep : keep a f e pl = true := ((Bool.and_eq_true _ _).mp hm).1
  have hkey : keyOf pl = k := by
    simpa using ((Bool.and_eq_true _ _).mp hm).2
  rcases truthy_id_spec (keep_truthy_id hkeep) with ⟨hid, hne⟩
  exact ⟨hkey ▸ hne, pl, hpl, hkey ▸ hid⟩

theorem C6_keys_from_input_witness :
    ("pl-1", "Prod-East") ∈ list_prefix_lists
      [⟨some "pl-1", some "Prod-East", some "111"⟩] (some "111") none none ∧
    (("pl-1", "Prod-East").1 ≠ "" ∧
      ∃ pl ∈ [(⟨some "pl-1", some "Prod-East", some "111"⟩ : PLRecord)],
        pl.PrefixListId = some ("pl-1", "Prod-East").1) := by
  have hp : ("pl-1", "Prod-East") ∈ list_prefix_lists
      [⟨some "pl-1", some "Prod-East", some "111"⟩] (some "111") none none := by
    rw [mem_result]
    decide
  exact ⟨hp, C6_keys_from_input _ _ _ _ _ hp⟩

/-- C8: `list_prefix_lists` is deterministic: identical record lists and
identical criteria produce identical output lists (same keys, same values,
same iteration order). -/
theorem C8_deterministic (r₁ r₂ : List PLRecord)
    (a₁ a₂ f₁ f₂ e₁ e₂ : Option String)
    (hr : r₁ = r₂) (ha : a₁ = a₂) (hf : f₁ = f₂) (he : e₁ = e₂) :
    list_prefix_lists r₁ a₁ f₁ e₁ = list_prefix_lists r₂ a₂ f₂ e₂ := by
  rw [hr, ha, hf, he]

theorem C8_deterministic_witness :
    list_prefix_lists [⟨some "a", some "x", none⟩] none none none
      = list_prefix_lists [⟨some "a", some "x", none⟩] none none none :=
  C8_deterministic _ _ _ _ _ _ _ _ rfl rfl rfl rfl

/-- C9: for every input — including records with absent name or absent
ownerId and filter combinations matching nothing — `list_prefix_lists`
returns a well-formed mapping: its keys are pairwise distinct.  (The
embedding is a total function, so running to completion without raising is
definitional.) -/
theorem C9_total_mapping (records : List PLRecord) (a f e : Option String) :
    ((list_prefix_lists records a f e).map Prod.fst).Nodup :=
  ((result_perm_runDict records a f e).map Prod.fst).nodup_iff.mpr
    (nodup_keys_runDict a f e records)

/-- C1 fails as stated: the first record below has a non-empty id, passes
the (absent) ownership, include and exclude filters, yet its (id, name)
pair is not in the result, because a later record with the same id
overwrites the stored name. -/
theorem C1_counterexample :
    keep none none none ⟨some "a", some "x", none⟩ = true ∧
    keyOf ⟨some "a", some "x", none⟩ = "a" ∧
    nameOf ⟨some "a", some "x", none⟩ = "x" ∧
    ("a", "x") ∉ list_prefix_lists
      [⟨some "a", some "x", none⟩, ⟨some "a", some "y", none⟩]
      none none none := by
  refine ⟨by decide, rfl, rfl, ?_⟩
  intro hmem
  exact absurd ((mem_result _ _ _ _ _ _).mp hmem) (by decide)

/-- C1 (amended): provided no two guard-passing records share an id, a pair
(id, name) appears in the result of `list_prefix_lists` iff some input
record has exactly that non-empty id, that name (after the `"N/A"`
default), and satisfies the ownership, include and exclude conditions.
(Without the distinctness proviso, a later record with the same id
overwrites the stored name, so only the last passing record's pair
appears.) -/
theorem C1_filter_correctness (records : List PLRecord)
    (a f e : Option String)
    (hids : ((records.filter (keep a f e)).map keyOf).Nodup) (k v : String) :
    ((k, v) ∈ list_prefix_lists records a f e) ↔
      ∃ pl ∈ records, pl.PrefixListId = some k ∧ k ≠ "" ∧ nameOf pl = v ∧
        (truthy a = true → pl.OwnerId = a) ∧
        (truthy f = true →
          strContains (strLower v) (strLower (f.getD "")) = true) ∧
        (truthy e = true →
          strContains (strLower v) (strLower (e.getD "")) = false) := by
  rw [mem_result]
  constructor
  · intro h
    rcases exists_of_lastKeep h with ⟨pl, hpl, hm, hname⟩
    have hkeep : keep a f e pl = true := ((Bool.and_eq_true _ _).mp hm).1
    have hkey : keyOf pl = k := by
      simpa using ((Bool.and_eq_true _ _).mp hm).2
    rcases truthy_id_spec (keep_truthy_id hkeep) with ⟨hid, hne⟩
    rcases (keep_eq_true_iff a f e pl).mp hkeep with ⟨-, howner, hinc, hexc⟩
    subst hname
    exact ⟨pl, hpl, hkey ▸ hid, hkey ▸ hne, rfl, howner, hinc, hexc⟩
  · rintro ⟨pl, hpl, hid, hkne, hname, howner, hinc, hexc⟩
    have htruthy : truthy pl.PrefixListId = true := by
      rw [hid]
      simpa [truthy] using hkne
    have hkeep : keep a f e pl = true := by
      rw [keep_eq_true_iff]
      refine ⟨htruthy, howner, ?_, ?_⟩
      · rw [hname]
        exact hinc
      · rw [hname]
        exact hexc
    have hkey : keyOf pl = k := by simp [keyOf, hid]
    have hm : matchesKey a f e k pl = true := by
      simp [matchesKey, hkeep, hkey]
    rw [lastKeep_eq_of_mem hids hpl hm, hname]

theorem C1_filter_correctness_witness :
    (([(⟨some "pl-1", some "Prod-East", some "111"⟩ : PLRecord)].filter
        (keep (some "111") none none)).map keyOf).Nodup ∧
    ((("pl-1", "Prod-East") ∈ list_prefix_lists
        [⟨some "pl-1", some "Prod-East", some "111"⟩]
        (some "111") none none) ↔
      ∃ pl ∈ [(⟨some "pl-1", some "Prod-East", some "111"⟩ : PLRecord)],
        pl.PrefixListId = some "pl-1" ∧ "pl-1" ≠ "" ∧
        nameOf pl = "Prod-East" ∧
        (truthy (some "111") = true → pl.OwnerId = some "111") ∧
        (truthy none = true →
          strContains (strLower "Prod-East")
            (strLower ((none : Option String).getD "")) = true) ∧
        (truthy none = true →
          strContains (strLower "Prod-East")
            (strLower ((none : Option String).getD "")) = false)) :=
  ⟨by decide,
   C1_filter_correctness _ (some "111") none none (by decide)
     "pl-1" "Prod-East"⟩

/-- C3: when two or more records share the same non-empty id and pass all
filters, exactly one entry for that id survives in the result, and its name
is that of the last such record in input order. -/
theorem C3_last_wins (records : List PLRecord) (a f e : Option String)
    (i : String) (plLast : PLRecord)
    (hlen : 2 ≤ (records.filter (matchesKey a f e i)).length)
    (hlast : (records.filter (matchesKey a f e i)).getLast? = some plLast) :
    (list_prefix_lists records a f e).filter (fun p => p.1 == i)
      = [(i, nameOf plLast)] := by
  have hlk : lastKeep a f e records i = some (nameOf plLast) := by
    rw [lastKeep, List.getLast?_map, hlast]
    rfl
  have hmem : (i, nameOf plLast) ∈ runDict a f e records :=
    (mem_runDict a f e records i (nameOf plLast)).mpr hlk
  have hmemf : (i, nameOf plLast) ∈
      (runDict a f e records).filter (fun p => p.1 == i) :=
    List.mem_filter.mpr ⟨hmem, by simp⟩
  have hlen1 : ((runDict a f e records).filter
      (fun p => p.1 == i)).length ≤ 1 :=
    length_filter_key_le_one Prod.fst _ (nodup_keys_runDict a f e records) i
  have hsing := eq_singleton_of_mem_of_length_le_one hmemf hlen1
  have hperm := (result_perm_runDict records a f e).filter
    (fun p => p.1 == i)
  rw [hsing] at hperm
  exact List.perm_singleton.mp hperm

theorem C3_last_wins_witness :
    2 ≤ ([⟨some "a", some "x", none⟩,
          (⟨some "a", some "y", none⟩ : PLRecord)].filter
            (matchesKey none none none "a")).length ∧
    ([⟨some "a", some "x", none⟩,
      (⟨some "a", some "y", none⟩ : PLRecord)].filter
        (matchesKey none none none "a")).getLast?
      = some ⟨some "a", some "y", none⟩ ∧
    (list_prefix_lists [⟨some "a", some "x", none⟩, ⟨some "a", some "y", none⟩]
        none none none).filter (fun p => p.1 == "a") = [("a", "y")] :=
  ⟨by decide, by decide,
   C3_last_wins _ none none none "a" ⟨some "a", some "y", none⟩
     (by decide) (by decide)⟩

/-- C5: a record whose name field is absent gets the literal `"N/A"` as its
name: `nameOf` yields the sentinel, the guards evaluate exactly as if the
name were the explicit string `"N/A"`, and the stored output values are
unchanged when every absent name is replaced by the explicit sentinel. -/
theorem C5_na_sentinel (records : List PLRecord) (a f e : Option String)
    (pl : PLRecord) (hpl : pl ∈ records)
    (hname : pl.PrefixListName = none) :
    nameOf pl = "N/A" ∧
    keep a f e (fillName pl) = keep a f e pl ∧
    list_prefix_lists (records.map fillName) a f e
      = list_prefix_lists records a f e := by
  refine ⟨by simp [nameOf, hname], ?_, ?_⟩
  · cases pl with
    | mk i n o => cases n <;> rfl
  · rw [list_prefix_lists_eq, list_prefix_lists_eq, runDict_map_fillName]

theorem C5_na_sentinel_witness :
    (⟨some "a", none, none⟩ : PLRecord) ∈
      [(⟨some "a", none, none⟩ : PLRecord)] ∧
    (⟨some "a", none, none⟩ : PLRecord).PrefixListName = none ∧
    (nameOf ⟨some "a", none, none⟩ = "N/A" ∧
      keep none none none (fillName ⟨some "a", none, none⟩)
        = keep none none none ⟨some "a", none, none⟩ ∧
      list_prefix_lists ([(⟨some "a", none, none⟩ : PLRecord)].map fillName)
          none none none
        = list_prefix_lists [⟨some "a", none, none⟩] none none none) :=
  ⟨by decide, rfl,
   C5_na_sentinel [⟨some "a", none, none⟩] none none none
     ⟨some "a", none, none⟩ (by decide) rfl⟩

/-- C7: with a non-empty account id, a record passes the guards iff its
ownerId equals the account id exactly (absent ownerId fails) and the other
guards pass; and an empty account id applies no ownership filtering at all
(it behaves exactly like an absent one). -/
theorem C7_ownership (aVal : String) (ha : aVal ≠ "") (f e : Option String)
    (pl : PLRecord) (records : List PLRecord) :
    (keep (some aVal) f e pl = true ↔
      (pl.OwnerId = some aVal ∧ keep none f e pl = true)) ∧
    list_prefix_lists records (some "") f e
      = list_prefix_lists records none f e := by
  constructor
  · rw [keep_eq_true_iff, keep_eq_true_iff]
    have hta : truthy (some aVal) = true := by simp [truthy, ha]
    simp only [hta, show truthy none = false from rfl, false_implies,
      true_implies, true_and, Bool.false_eq_true]
    tauto
  · have hp : ∀ (d : List (String × String)) (pl' : PLRecord),
        processRecord (some "") f e d pl' = processRecord none f e d pl' := by
      intro d pl'
      rfl
    have key : ∀ (rs : List PLRecord) (d : List (String × String)),
        rs.foldl (processRecord (some "") f e) d
          = rs.foldl (processRecord none f e) d := by
      intro rs
      induction rs with
      | nil => intro d; rfl
      | cons p ps ih =>
        intro d
        rw [List.foldl_cons, List.foldl_cons, hp]
        exact ih _
    have hrd : runDict (some "") f e records = runDict none f e records :=
      key records []
    rw [list_prefix_lists_eq, list_prefix_lists_eq, hrd]

theorem C7_ownership_witness :
    ("111" : String) ≠ "" ∧
    ((keep (some "111") none none ⟨some "pl-1", some "x", some "111"⟩ = true ↔
      ((⟨some "pl-1", some "x", some "111"⟩ : PLRecord).OwnerId = some "111" ∧
        keep none none none ⟨some "pl-1", some "x", some "111"⟩ = true)) ∧
     list_prefix_lists [(⟨some "pl-2", some "y", none⟩ : PLRecord)]
         (some "") none none
       = list_prefix_lists [⟨some "pl-2", some "y", none⟩] none none none) :=
  ⟨by decide,
   C7_ownership "111" (by decide) none none
     ⟨some "pl-1", some "x", some "111"⟩ [⟨some "pl-2", some "y", none⟩]⟩

/-- C10 fails as stated: with duplicate ids, adding an exclude filter can
expose an earlier record's name that the unfiltered run overwrites, so the
filtered result is not a subset of the unfiltered one. -/
theorem C10_counterexample :
    ("a", "x") ∈ list_prefix_lists
      [⟨some "a", some "x", none⟩, ⟨some "a", some "yz", none⟩]
      none none (some "z") ∧
    ("a", "x") ∉ list_prefix_lists
      [⟨some "a", some "x", none⟩, ⟨some "a", some "yz", none⟩]
      none none none := by
  constructor
  · rw [mem_result]
    decide
  · intro hmem
    exact absurd ((mem_result _ _ _ _ _ _).mp hmem) (by decide)

/-- C10 (amended): provided no two guard-passing records share an id,
adding an exclude filter never adds entries — every (id, name) pair
returned with an exclude substring is also returned without one; and,
unconditionally, when the include and exclude substrings are non-empty and
equal case-insensitively the result is always empty. -/
theorem C10_exclude_monotone (records : List PLRecord) (a f : Option String)
    (e : String)
    (hids : ((records.filter (keep a f none)).map keyOf).Nodup) :
    (∀ k v, (k, v) ∈ list_prefix_lists records a f (some e) →
      (k, v) ∈ list_prefix_lists records a f none) ∧
    (∀ g x : String, g ≠ "" → x ≠ "" → strLower g = strLower x →
      list_prefix_lists records a (some g) (some x) = []) := by
  constructor
  · intro k v hmem
    rw [mem_result] at hmem ⊢
    rcases exists_of_lastKeep hmem with ⟨pl, hpl, hm, hname⟩
    have hkeepE : keep a f (some e) pl = true :=
      ((Bool.and_eq_true _ _).mp hm).1
    have hkey : keyOf pl = k := by
      simpa using ((Bool.and_eq_true _ _).mp hm).2
    have hkeepN : keep a f none pl = true := by
      rcases (keep_eq_true_iff a f (some e) pl).mp hkeepE with ⟨h1, h2, h3, -⟩
      refine (keep_eq_true_iff a f none pl).mpr ⟨h1, h2, h3, ?_⟩
      intro h
      simp [truthy] at h
    have hmN : matchesKey a f none k pl = true := by
      simp [matchesKey, hkeepN, hkey]
    rw [lastKeep_eq_of_mem hids hpl hmN, hname]
  · intro g x hg hx hgx
    apply result_of_runDict_nil
    apply runDict_eq_nil
    intro pl _
    by_contra hk
    rw [Bool.not_eq_false] at hk
    rcases (keep_eq_true_iff a (some g) (some x) pl).mp hk with ⟨-, -, hinc, hexc⟩
    have htg : truthy (some g) = true := by simp [truthy, hg]
    have htx : truthy (some x) = true := by simp [truthy, hx]
    have h1 := hinc htg
    have h2 := hexc htx
    simp only [Option.getD_some] at h1 h2
    rw [hgx] at h1
    rw [h1] at h2
    cases h2

theorem C10_exclude_monotone_witness :
    (([(⟨some "a", some "x", none⟩ : PLRecord)].filter
        (keep none none none)).map keyOf).Nodup ∧
    ((∀ k v, (k, v) ∈ list_prefix_lists [(⟨some "a", some "x", none⟩ : PLRecord)]
        none none (some "z") →
      (k, v) ∈ list_prefix_lists [(⟨some "a", some "x", none⟩ : PLRecord)]
        none none none) ∧
     (∀ g x : String, g ≠ "" → x ≠ "" → strLower g = strLower x →
       list_prefix_lists [(⟨some "a", some "x", none⟩ : PLRecord)]
         none (some g) (some x) = [])) :=
  ⟨by decide,
   C10_exclude_monotone [⟨some "a", some "x", none⟩] none none "z"
     (by decide)⟩

end PLUtils
